import Mathlib

/-!
Verification of `consensus/src/chained_bft/liveness/multi_proposer_election.rs`:
deterministic multi-proposer election for a round-based BFT protocol.

The embedding models:
  * `hash` — SipHash 2-4 (as produced by `SipHasher24::new()`, i.e. zero key)
    of the 8-byte little-endian encoding of a `u64` value, over `Nat` with
    explicit reduction modulo `2 ^ 64`;
  * `Block` — the opaque proposal (round, optional author, payload identity);
  * `MultiProposer` — the election instance state;
  * the operations `new`, `get_candidates`, `is_valid_proposer`,
    `get_valid_proposers`, `process_proposal`, `take_backup_proposal`.

Rust panics (failed `assert!`, remainder by zero, out-of-bounds
`swap_remove`) are modelled by `Option`: `none` means the call panics.
-/

namespace Libra

/-- 64-bit left rotation on `Nat` values below `2 ^ 64`. -/
def rotl64 (x : Nat) (n : Nat) : Nat :=
  (x <<< n) % 2 ^ 64 ||| (x >>> (64 - n))

/-- The four 64-bit words of SipHash internal state. -/
structure SipState where
  v0 : Nat
  v1 : Nat
  v2 : Nat
  v3 : Nat

/-- One SipRound, all additions modulo `2 ^ 64`. -/
def sipRound (s : SipState) : SipState :=
  let v0 := (s.v0 + s.v1) % 2 ^ 64
  let v1 := rotl64 s.v1 13
  let v1 := v1 ^^^ v0
  let v0 := rotl64 v0 32
  let v2 := (s.v2 + s.v3) % 2 ^ 64
  let v3 := rotl64 s.v3 16
  let v3 := v3 ^^^ v2
  let v0 := (v0 + v3) % 2 ^ 64
  let v3 := rotl64 v3 21
  let v3 := v3 ^^^ v0
  let v2 := (v2 + v1) % 2 ^ 64
  let v1 := rotl64 v1 17
  let v1 := v1 ^^^ v2
  let v2 := rotl64 v2 32
  ⟨v0, v1, v2, v3⟩

/-- `hash(val)` from the source: SipHash 2-4 with zero key
(`SipHasher24::new()`) applied to the 8-byte little-endian encoding of the
64-bit value `val`.  The single 8-byte message block read little-endian is
the value itself; the final block is the length byte `8` shifted into the
top byte. -/
def hash (val : Nat) : Nat :=
  let m := val % 2 ^ 64
  let s : SipState :=
    ⟨0x736f6d6570736575, 0x646f72616e646f6d, 0x6c7967656e657261, 0x7465646279746573⟩
  let s := { s with v3 := s.v3 ^^^ m }
  let s := sipRound (sipRound s)
  let s := { s with v0 := s.v0 ^^^ m }
  let b := 8 <<< 56
  let s := { s with v3 := s.v3 ^^^ b }
  let s := sipRound (sipRound s)
  let s := { s with v0 := s.v0 ^^^ b }
  let s := { s with v2 := s.v2 ^^^ 0xff }
  let s := sipRound (sipRound (sipRound (sipRound s)))
  s.v0 ^^^ s.v1 ^^^ s.v2 ^^^ s.v3

/-- `std::usize::MAX` on the 64-bit targets the source runs on. -/
def usizeMax : Nat := 2 ^ 64 - 1

/-- The opaque proposal: the election logic only inspects `round` and
`author`; `payload` stands for the rest of the block's data and gives
distinct block values their identity. -/
structure Block (α : Type) where
  round : Nat
  author : Option α
  payload : Nat
deriving DecidableEq, Repr

/-- The election instance state (`MultiProposer<T>` in the source). -/
structure MultiProposer (α : Type) where
  proposers : List α
  num_proposers_per_round : Nat
  backup_proposal_round : Nat
  backup_proposal : Option (Nat × Block α)
deriving DecidableEq, Repr

/-- `Vec::swap_remove(i)`: overwrite position `i` with the last element and
pop the last element.  (Callers guard `i < l.length`; on the empty list the
source would panic, which the guard in `getCandidatesAux` models.) -/
def swapRemove {α : Type} (l : List α) (i : Nat) : List α :=
  match l.getLast? with
  | none => []
  | some last => (l.set i last).dropLast

/-- The selection loop body of `get_candidates`, recursing on the number of
proposers still to pick.  `none` models the panic on remainder by zero /
out-of-bounds `swap_remove` (only possible when the pool is empty). -/
def getCandidatesAux {α : Type} (candidates : List α) (cur_val : Nat) :
    Nat → Option (List α)
  | 0 => some []
  | n + 1 =>
    let c := hash cur_val
    if candidates.length = 0 then none
    else
      let idx := c % candidates.length
      match candidates[idx]? with
      | none => none
      | some a => (getCandidatesAux (swapRemove candidates idx) c n).map (a :: ·)

/-- `MultiProposer::new`.  The two `assert!`s are modelled by `none`
(construction panics).  A requested count larger than the pool is clamped
down to the pool size. -/
def MultiProposer.new {α : Type} (proposers : List α)
    (num_proposers_per_round : Nat) : Option (MultiProposer α) :=
  if 0 < num_proposers_per_round then
    let n :=
      if num_proposers_per_round > proposers.length then proposers.length
      else num_proposers_per_round
    if n ≤ proposers.length then
      some { proposers := proposers
             num_proposers_per_round := n
             backup_proposal_round := 0
             backup_proposal := none }
    else none
  else none

/-- `MultiProposer::get_candidates`. -/
def MultiProposer.get_candidates {α : Type} (m : MultiProposer α)
    (round : Nat) : Option (List α) :=
  getCandidatesAux m.proposers round m.num_proposers_per_round

/-- `is_valid_proposer`: echoes the author back iff it occurs among the
round's candidates.  The outer `Option` models the (never reached) panic of
`get_candidates`. -/
def MultiProposer.is_valid_proposer {α : Type} [DecidableEq α]
    (m : MultiProposer α) (author : α) (round : Nat) : Option (Option α) :=
  (m.get_candidates round).map fun candidates =>
    if author ∈ candidates then some author else none

/-- `get_valid_proposers`: pass-through to `get_candidates`. -/
def MultiProposer.get_valid_proposers {α : Type} (m : MultiProposer α)
    (round : Nat) : Option (List α) :=
  m.get_candidates round

/-- The backup-recording branch of `process_proposal`, reached when the
author matches a candidate of rank `> 0`. -/
def recordBackup {α : Type} (m : MultiProposer α) (proposal : Block α)
    (rank : Nat) : MultiProposer α × Option (Block α) :=
  let round := proposal.round
  if round > m.backup_proposal_round then
    ({ m with backup_proposal := some (rank, proposal)
              backup_proposal_round := round }, none)
  else if round = m.backup_proposal_round then
    let current_rank :=
      match m.backup_proposal with
      | none => usizeMax
      | some (r, _) => r
    if rank < current_rank then
      ({ m with backup_proposal := some (rank, proposal) }, none)
    else (m, none)
  else (m, none)

/-- The `for (rank, candidate) in candidates.iter().enumerate()` loop of
`process_proposal`; `rank` is the loop-carried enumeration index. -/
def processLoop {α : Type} [DecidableEq α] (m : MultiProposer α)
    (proposal : Block α) (author : α) : Nat → List α →
    MultiProposer α × Option (Block α)
  | _, [] => (m, none)
  | rank, candidate :: rest =>
    if author = candidate then
      if rank = 0 then (m, some proposal)
      else recordBackup m proposal rank
    else processLoop m proposal author (rank + 1) rest

/-- `process_proposal`.  Returns the updated state together with the
source's return value; the outer `Option` models the (never reached) panic
of `get_candidates`.  A proposal without an author is ignored (`?` on
`proposal.author()` returns `None` with no state change). -/
def MultiProposer.process_proposal {α : Type} [DecidableEq α]
    (m : MultiProposer α) (proposal : Block α) :
    Option (MultiProposer α × Option (Block α)) :=
  match proposal.author with
  | none => some (m, none)
  | some author =>
    match m.get_candidates proposal.round with
    | none => none
    | some candidates => some (processLoop m proposal author 0 candidates)

/-- `take_backup_proposal`. -/
def MultiProposer.take_backup_proposal {α : Type} (m : MultiProposer α)
    (round : Nat) : MultiProposer α × Option (Block α) :=
  if m.backup_proposal_round ≠ round then (m, none)
  else
    match m.backup_proposal with
    | some (_, block) => ({ m with backup_proposal := none }, some block)
    | none => (m, none)

/-- Sequential processing of a list of proposals (`none` as soon as one
call panics). -/
def processAll {α : Type} [DecidableEq α] (m : MultiProposer α) :
    List (Block α) → Option (MultiProposer α)
  | [] => some m
  | p :: ps =>
    match m.process_proposal p with
    | none => none
    | some (m', _) => processAll m' ps

/-- Rank of the first occurrence of `a` in a candidate list (the rank the
enumeration loop of `process_proposal` assigns to author `a`). -/
def rankIn {α : Type} [DecidableEq α] (a : α) : List α → Option Nat
  | [] => none
  | c :: rest => if a = c then some 0 else (rankIn a rest).map (· + 1)

/-- Rank of a proposal's author among the given candidates (`none` when the
proposal has no author or the author is no candidate). -/
def proposalRank {α : Type} [DecidableEq α] (cands : List α)
    (p : Block α) : Option Nat :=
  p.author.bind fun a => rankIn a cands

/-- Swap-with-last removal as the specification words it: overwrite
`pool[index]` with the pool's current last element, then shrink the pool by
one; if `index` was already the last element, simply shrink. -/
def specSwapRemove {α : Type} (pool : List α) (idx : Nat) : List α :=
  if idx + 1 = pool.length then pool.dropLast
  else
    match pool.getLast? with
    | none => pool
    | some last => (pool.set idx last).dropLast

/-- The reference selection as the specification words it: starting from
chain value `h`, for each rank recompute `h = hash h`, pick
`index = h % pool.length`, output the element at `index`, and remove it by
swap-with-last removal. -/
def specSelection {α : Type} [Inhabited α] (pool : List α) (h : Nat) :
    Nat → List α
  | 0 => []
  | k + 1 =>
    let h2 := hash h
    let idx := h2 % pool.length
    pool.getD idx default :: specSelection (specSwapRemove pool idx) h2 k

/-! ### Helper lemmas about `swapRemove` and the selection loop -/

theorem swapRemove_nil {α : Type} (i : Nat) : swapRemove ([] : List α) i = [] :=
  rfl

theorem length_swapRemove {α : Type} (l : List α) (i : Nat) (h : l ≠ []) :
    (swapRemove l i).length = l.length - 1 := by
  unfold swapRemove
  rw [List.getLast?_eq_getLast l h]
  simp

theorem set_self_getElem {α : Type} :
    ∀ (l : List α) (i : Nat) (h : i < l.length), l.set i l[i] = l := by
  intro l
  induction l with
  | nil => intro i h; simp at h
  | cons a t ih =>
    intro i h
    cases i with
    | zero => simp
    | succ j =>
      simp only [List.set_cons_succ, List.getElem_cons_succ, List.cons.injEq, true_and]
      exact ih j (by simpa using h)

theorem cons_set_perm {α : Type} :
    ∀ (l : List α) (i : Nat) (h : i < l.length) (b : α),
      (l[i] :: l.set i b).Perm (b :: l) := by
  intro l
  induction l with
  | nil => intro i h; simp at h
  | cons a t ih =>
    intro i h b
    cases i with
    | zero => simpa using List.Perm.swap b a t
    | succ j =>
      have hj : j < t.length := by simpa using h
      simp only [List.getElem_cons_succ, List.set_cons_succ]
      exact (List.Perm.swap a t[j] (t.set j b)).trans
        (((ih j hj b).cons a).trans (List.Perm.swap b a t))

theorem swapRemove_perm {α : Type} (l : List α) (i : Nat) (h : i < l.length) :
    (l[i] :: swapRemove l i).Perm l := by
  have hne : l ≠ [] := List.ne_nil_of_length_pos (Nat.lt_of_le_of_lt (Nat.zero_le i) h)
  have hlast : l.getLast? = some (l.getLast hne) := List.getLast?_eq_getLast l hne
  obtain ⟨g, hg⟩ : ∃ g, l.getLast? = some g := ⟨_, hlast⟩
  have hgl : l.getLast hne = g := by
    rw [hlast] at hg; exact Option.some.inj hg
  have hld : l.dropLast ++ [g] = l := by
    rw [← hgl]; exact List.dropLast_append_getLast hne
  have hsr : swapRemove l i = (l.set i g).dropLast := by
    unfold swapRemove; rw [hg]
  rw [hsr]
  by_cases hi : i < l.dropLast.length
  · have hset : l.set i g = l.dropLast.set i g ++ [g] := by
      conv_lhs => rw [← hld]
      rw [List.set_append, if_pos hi]
    have hget : l[i] = l.dropLast[i] := (List.getElem_dropLast l i hi).symm
    rw [hset, List.dropLast_concat, hget]
    refine (cons_set_perm l.dropLast i hi g).trans ?_
    refine ((List.perm_append_singleton g l.dropLast).symm).trans ?_
    rw [hld]
  · have hlen : l.dropLast.length = l.length - 1 := List.length_dropLast l
    have hieq : i = l.length - 1 := by omega
    subst hieq
    have hgi : g = l[l.length - 1] := by
      rw [← hgl]; exact List.getLast_eq_getElem l hne
    have hset2 : l.set (l.length - 1) g = l := by
      rw [hgi]; exact set_self_getElem l _ h
    rw [hset2, show l[l.length - 1] = g from hgi.symm]
    refine ((List.perm_append_singleton g l.dropLast).symm).trans ?_
    rw [hld]

theorem getCandidatesAux_spec {α : Type} :
    ∀ (n : Nat) (l : List α) (cur : Nat), n ≤ l.length →
      ∃ res, getCandidatesAux l cur n = some res ∧ res.length = n ∧
        (∀ a ∈ res, a ∈ l) ∧ (l.Nodup → res.Nodup) := by
  intro n
  induction n with
  | zero => intro l cur _; exact ⟨[], rfl, rfl, by simp, by simp⟩
  | succ n ih =>
    intro l cur hlen
    have hpos : 0 < l.length := by omega
    have hne : l ≠ [] := List.ne_nil_of_length_pos hpos
    have hidx : hash cur % l.length < l.length := Nat.mod_lt _ hpos
    have hrec : n ≤ (swapRemove l (hash cur % l.length)).length := by
      rw [length_swapRemove l _ hne]; omega
    obtain ⟨res, hres, hlenres, hmem, hnd⟩ := ih (swapRemove l (hash cur % l.length)) (hash cur) hrec
    have hperm := swapRemove_perm l (hash cur % l.length) hidx
    refine ⟨l[hash cur % l.length] :: res, ?_, by simp [hlenres], ?_, ?_⟩
    · unfold getCandidatesAux
      rw [if_neg (by omega)]
      simp [List.getElem?_eq_getElem hidx, hres]
    · intro a ha
      rcases List.mem_cons.mp ha with rfl | ha
      · exact hperm.mem_iff.mp (List.mem_cons_self _ _)
      · exact hperm.mem_iff.mp (List.mem_cons_of_mem _ (hmem a ha))
    · intro hndl
      have hcons : (l[hash cur % l.length] :: swapRemove l (hash cur % l.length)).Nodup :=
        hperm.symm.nodup hndl
      have hnotmem : l[hash cur % l.length] ∉ swapRemove l (hash cur % l.length) :=
        (List.nodup_cons.mp hcons).1
      have hndsr : (swapRemove l (hash cur % l.length)).Nodup := (List.nodup_cons.mp hcons).2
      exact List.nodup_cons.mpr ⟨fun hmem2 => hnotmem (hmem _ hmem2), hnd hndsr⟩

/-! ### Refinement of the selection loop against the specification text -/

theorem specSwapRemove_eq {α : Type} (l : List α) (i : Nat) (h : i < l.length) :
    specSwapRemove l i = swapRemove l i := by
  have hne : l ≠ [] := List.ne_nil_of_length_pos (Nat.lt_of_le_of_lt (Nat.zero_le i) h)
  have hlast : l.getLast? = some (l.getLast hne) := List.getLast?_eq_getLast l hne
  have h2 : swapRemove l i = (l.set i (l.getLast hne)).dropLast := by
    unfold swapRemove; rw [hlast]
  by_cases hi : i + 1 = l.length
  · have h1 : specSwapRemove l i = l.dropLast := by
      unfold specSwapRemove; rw [if_pos hi]
    have hgi : l.getLast hne = l[i] := by
      rw [List.getLast_eq_getElem l hne]
      have hli : l.length - 1 = i := by omega
      simp [hli]
    rw [h1, h2, hgi, set_self_getElem l i h]
  · have h1 : specSwapRemove l i = (l.set i (l.getLast hne)).dropLast := by
      unfold specSwapRemove; rw [if_neg hi, hlast]
    rw [h1, h2]

theorem getCandidatesAux_eq_specSelection {α : Type} [Inhabited α] :
    ∀ (n : Nat) (l : List α) (cur : Nat), n ≤ l.length →
      getCandidatesAux l cur n = some (specSelection l cur n) := by
  intro n
  induction n with
  | zero => intro l cur _; rfl
  | succ n ih =>
    intro l cur hlen
    have hpos : 0 < l.length := by omega
    have hne : l ≠ [] := List.ne_nil_of_length_pos hpos
    have hidx : hash cur % l.length < l.length := Nat.mod_lt _ hpos
    have hrec : n ≤ (swapRemove l (hash cur % l.length)).length := by
      rw [length_swapRemove l _ hne]; omega
    unfold getCandidatesAux specSelection
    rw [if_neg (by omega)]
    simp [List.getElem?_eq_getElem hidx, ih _ _ hrec,
      List.getD_eq_getElem l default hidx, specSwapRemove_eq l _ hidx]

/-! ### Characterisation of construction -/

theorem new_zero {α : Type} (P : List α) : MultiProposer.new P 0 = none := rfl

theorem new_pos {α : Type} (P : List α) (k : Nat) (hk : 0 < k) :
    MultiProposer.new P k =
      some { proposers := P
             num_proposers_per_round := min k P.length
             backup_proposal_round := 0
             backup_proposal := none } := by
  unfold MultiProposer.new
  rw [if_pos hk]
  by_cases h : k > P.length
  · rw [if_pos h, if_pos (Nat.le_refl _)]
    have : min k P.length = P.length := by omega
    rw [this]
  · rw [if_neg h, if_pos (by omega)]
    have : min k P.length = k := by omega
    rw [this]

theorem new_none_iff {α : Type} (P : List α) (k : Nat) :
    MultiProposer.new P k = none ↔ k = 0 := by
  constructor
  · intro h
    by_contra hk
    rw [new_pos P k (Nat.pos_of_ne_zero hk)] at h
    exact Option.some_ne_none _ h
  · intro h; subst h; exact new_zero P

/-! ### Characterisation of `process_proposal` -/

theorem recordBackup_proposers {α : Type} (m : MultiProposer α) (p : Block α)
    (rank : Nat) : (recordBackup m p rank).1.proposers = m.proposers ∧
      (recordBackup m p rank).1.num_proposers_per_round = m.num_proposers_per_round := by
  simp only [recordBackup]
  split_ifs <;> exact ⟨rfl, rfl⟩

theorem processLoop_rankIn {α : Type} [DecidableEq α] (m : MultiProposer α)
    (p : Block α) (a : α) :
    ∀ (cands : List α) (r0 : Nat),
      processLoop m p a r0 cands =
        match rankIn a cands with
        | none => (m, none)
        | some j => if r0 + j = 0 then (m, some p) else recordBackup m p (r0 + j) := by
  intro cands
  induction cands with
  | nil => intro r0; rfl
  | cons c rest ih =>
    intro r0
    by_cases hac : a = c
    · simp only [processLoop, rankIn, if_pos hac]
      by_cases hr0 : r0 = 0
      · subst hr0; simp
      · rw [if_neg hr0]
        simp only [Nat.add_zero]
        rw [if_neg (by omega)]
    · simp only [processLoop, rankIn, if_neg hac]
      rw [ih (r0 + 1)]
      cases hrk : rankIn a rest with
      | none => simp
      | some j =>
        have harr : r0 + 1 + j = r0 + (j + 1) := by omega
        simp only [Option.map_some']
        rw [harr]

theorem process_proposal_none_author {α : Type} [DecidableEq α]
    (m : MultiProposer α) (p : Block α) (h : p.author = none) :
    m.process_proposal p = some (m, none) := by
  unfold MultiProposer.process_proposal
  rw [h]

theorem process_proposal_eq {α : Type} [DecidableEq α] (m : MultiProposer α)
    (p : Block α) (a : α) (cands : List α) (ha : p.author = some a)
    (hc : m.get_candidates p.round = some cands) :
    m.process_proposal p =
      some (match rankIn a cands with
        | none => (m, none)
        | some 0 => (m, some p)
        | some (j + 1) => recordBackup m p (j + 1)) := by
  have hL : m.process_proposal p = some (processLoop m p a 0 cands) := by
    simp only [MultiProposer.process_proposal, ha, hc]
  rw [hL, processLoop_rankIn m p a cands 0]
  cases hrk : rankIn a cands with
  | none => rfl
  | some j =>
    cases j with
    | zero => simp
    | succ j => simp

theorem process_proposal_proposers {α : Type} [DecidableEq α]
    (m m' : MultiProposer α) (p : Block α) (o : Option (Block α))
    (h : m.process_proposal p = some (m', o)) :
    m'.proposers = m.proposers ∧
      m'.num_proposers_per_round = m.num_proposers_per_round := by
  cases hA : p.author with
  | none =>
    rw [process_proposal_none_author m p hA] at h
    simp only [Option.some.injEq] at h
    injection h with h1 _
    rw [← h1]; exact ⟨rfl, rfl⟩
  | some a =>
    cases hC : m.get_candidates p.round with
    | none =>
      simp only [MultiProposer.process_proposal, hA, hC] at h
      exact absurd h (by simp)
    | some cands =>
      rw [process_proposal_eq m p a cands hA hC] at h
      cases hrk : rankIn a cands with
      | none =>
        rw [hrk] at h
        simp only [Option.some.injEq] at h
        injection h with h1 _
        rw [← h1]; exact ⟨rfl, rfl⟩
      | some j =>
        rw [hrk] at h
        cases j with
        | zero =>
          simp only [Option.some.injEq] at h
          injection h with h1 _
          rw [← h1]; exact ⟨rfl, rfl⟩
        | succ j =>
          simp only [Option.some.injEq] at h
          have h1 : (recordBackup m p (j + 1)).1 = m' := by rw [h]
          rw [← h1]
          exact recordBackup_proposers m p (j + 1)

/-! ### Claims -/

/-- C1: for every round `r` and every constructed instance with proposer
list `P` and effective count `k = num_proposers_per_round`,
`get_valid_proposers r` equals the reference selection of the
specification: start a chain value `h = r`, and for each rank recompute
`h = hash h` (SipHash 2-4 of the 64-bit value), pick `index = h mod`
(current pool length) from a working pool initialised to `P` in configured
order, output the element at that index, and remove it by swap-with-last
removal. -/
theorem C1_get_valid_proposers_matches_reference_selection {α : Type}
    [Inhabited α] (P : List α) (k : Nat) (m : MultiProposer α)
    (hm : MultiProposer.new P k = some m) (r : Nat) :
    m.get_valid_proposers r =
      some (specSelection P r m.num_proposers_per_round) := by
  have hk : 0 < k := by
    by_contra hk0
    have hz : k = 0 := by omega
    subst hz
    rw [new_zero] at hm
    exact absurd hm (by simp)
  rw [new_pos P k hk] at hm
  injection hm with hm
  subst hm
  exact getCandidatesAux_eq_specSelection (min k P.length) P r
    (Nat.min_le_right k P.length)

/-- C1 witness: the concrete instance over `[0, 1, 2, 3]` with count 3. -/
theorem C1_witness :
    MultiProposer.new [0, 1, 2, 3] 3 =
      some ⟨[0, 1, 2, 3], 3, 0, none⟩ ∧
    MultiProposer.get_valid_proposers ⟨[0, 1, 2, 3], 3, 0, none⟩ 7 =
      some (specSelection [0, 1, 2, 3] 7 3) :=
  ⟨by decide,
   C1_get_valid_proposers_matches_reference_selection [0, 1, 2, 3] 3
     ⟨[0, 1, 2, 3], 3, 0, none⟩ (by decide) 7⟩

/-- C2 counterexample: construction does NOT fail on an empty proposer
list — `new([], 1)` passes `assert!(num_proposers_per_round > 0)`, clamps
the count to `proposers.len() = 0`, passes the second assert, and returns
an instance. -/
theorem C2_counterexample :
    MultiProposer.new ([] : List Nat) 1 = some ⟨[], 0, 0, none⟩ := by
  decide

/-- C2 (amended): construction fails immediately exactly when the
requested `num_proposers_per_round` is zero; an empty proposer list with a
positive requested count does not fail — the effective count is clamped to
zero and an instance is produced. -/
theorem C2_amended_new_fails_iff_zero_count {α : Type} (P : List α)
    (k : Nat) : MultiProposer.new P k = none ↔ k = 0 :=
  new_none_iff P k

/-- C3: for every instance constructed from a duplicate-free proposer list
`P` and requested count `k ≥ 1`, and every round `r`,
`get_valid_proposers r` contains no duplicate author and has length
exactly `min k |P|` (the constructor clamps an oversized request down to
`|P|` and still succeeds). -/
theorem C3_candidates_nodup_length_min {α : Type} (P : List α) (k : Nat)
    (hk : 1 ≤ k) (hnd : P.Nodup) (m : MultiProposer α)
    (hm : MultiProposer.new P k = some m) (r : Nat) :
    ∃ l, m.get_valid_proposers r = some l ∧ l.Nodup ∧
      l.length = min k P.length := by
  rw [new_pos P k hk] at hm
  injection hm with hm
  subst hm
  obtain ⟨res, h1, h2, _, h4⟩ :=
    getCandidatesAux_spec (min k P.length) P r (Nat.min_le_right k P.length)
  exact ⟨res, h1, h4 hnd, h2⟩

/-- C3 witness: `[0, 1, 2, 3]` with requested count 6 clamps to 4. -/
theorem C3_witness :
    1 ≤ 6 ∧ ([0, 1, 2, 3] : List Nat).Nodup ∧
    MultiProposer.new [0, 1, 2, 3] 6 = some ⟨[0, 1, 2, 3], 4, 0, none⟩ ∧
    ∃ l, MultiProposer.get_valid_proposers
        (⟨[0, 1, 2, 3], 4, 0, none⟩ : MultiProposer Nat) 7 = some l ∧
      l.Nodup ∧ l.length = min 6 [0, 1, 2, 3].length :=
  ⟨by decide, by decide, by decide,
   C3_candidates_nodup_length_min [0, 1, 2, 3] 6 (by decide) (by decide)
     ⟨[0, 1, 2, 3], 4, 0, none⟩ (by decide) 7⟩

/-- C10: every instance produced by `new` satisfies
`num_proposers_per_round ≤ proposers.length`, and under that invariant
`get_candidates` is total for every round (no remainder by zero, no
out-of-bounds `swap_remove`; `none` in the model marks exactly those
panics), returning a list of length `num_proposers_per_round` — including
the degenerate case of an effective count of 0, where the loop never runs
and the result is the empty list. -/
theorem C10_no_panic_under_invariant {α : Type} (P : List α) (k : Nat)
    (m : MultiProposer α) (hm : MultiProposer.new P k = some m) :
    m.num_proposers_per_round ≤ m.proposers.length ∧
    (∀ r, ∃ l, m.get_candidates r = some l ∧
      l.length = m.num_proposers_per_round) ∧
    (m.num_proposers_per_round = 0 → ∀ r, m.get_candidates r = some []) := by
  have hk : 0 < k := by
    by_contra hk0
    have hz : k = 0 := by omega
    subst hz
    rw [new_zero] at hm
    exact absurd hm (by simp)
  rw [new_pos P k hk] at hm
  injection hm with hm
  subst hm
  refine ⟨Nat.min_le_right k P.length, ?_, ?_⟩
  · intro r
    obtain ⟨res, h1, h2, _, _⟩ :=
      getCandidatesAux_spec (min k P.length) P r (Nat.min_le_right k P.length)
    exact ⟨res, h1, h2⟩
  · intro hzero r
    show getCandidatesAux P r (min k P.length) = some []
    rw [show min k P.length = 0 from hzero]
    rfl

/-- C10 witness: the degenerate empty-pool instance and a regular one. -/
theorem C10_witness :
    MultiProposer.new ([] : List Nat) 2 = some ⟨[], 0, 0, none⟩ ∧
    MultiProposer.get_candidates (⟨[], 0, 0, none⟩ : MultiProposer Nat) 7 =
      some [] ∧
    MultiProposer.new [0, 1, 2, 3] 3 = some ⟨[0, 1, 2, 3], 3, 0, none⟩ ∧
    (3 : Nat) ≤ [0, 1, 2, 3].length :=
  ⟨by decide,
   ((C10_no_panic_under_invariant ([] : List Nat) 2 ⟨[], 0, 0, none⟩
       (by decide)).2.2 rfl 7),
   by decide,
   (C10_no_panic_under_invariant [0, 1, 2, 3] 3 ⟨[0, 1, 2, 3], 3, 0, none⟩
       (by decide)).1⟩

/-- C5: if a backup is retained and `process_proposal` is then given a
proposal for a strictly higher round whose author is a rank `> 0`
candidate for that round, the retained backup and tracked round are
unconditionally replaced by the new proposal and its round (regardless of
the ranks involved); afterwards `take_backup_proposal` at any other round
(in particular the old round) returns nothing, and at the new round
returns the new proposal. -/
theorem C5_round_supersession {α : Type} [DecidableEq α]
    (m : MultiProposer α) (p : Block α) (a : α) (cands : List α)
    (j0 : Nat) (b0 : Block α) (jp : Nat)
    (hb : m.backup_proposal = some (j0, b0))
    (hgt : p.round > m.backup_proposal_round)
    (ha : p.author = some a) (hc : m.get_candidates p.round = some cands)
    (hrk : rankIn a cands = some (jp + 1)) :
    ∃ m', m.process_proposal p = some (m', none) ∧
      m'.backup_proposal = some (jp + 1, p) ∧
      m'.backup_proposal_round = p.round ∧
      (∀ r0, r0 ≠ p.round → m'.take_backup_proposal r0 = (m', none)) ∧
      m'.take_backup_proposal p.round =
        ({ m' with backup_proposal := none }, some p) := by
  have hpe := process_proposal_eq m p a cands ha hc
  rw [hrk] at hpe
  have hrb : recordBackup m p (jp + 1) =
      ({ m with backup_proposal := some (jp + 1, p)
                backup_proposal_round := p.round }, none) := by
    simp only [recordBackup]
    rw [if_pos hgt]
  simp only [hrb] at hpe
  refine ⟨_, hpe, rfl, rfl, ?_, ?_⟩
  · intro r0 hr0
    unfold MultiProposer.take_backup_proposal
    rw [if_pos (by simpa using fun hh => hr0 hh.symm)]
  · unfold MultiProposer.take_backup_proposal
    rw [if_neg (by simp)]

/-- C5 witness: backup at round 5 (author 1, rank 1), superseded by a
round-6 proposal from author 0 (rank 1 for round 6). -/
theorem C5_witness :
    (Block.mk 6 (some 0) 11).author = some 0 ∧
    MultiProposer.get_candidates
      (⟨[0, 1, 2, 3], 3, 5, some (1, ⟨5, some 1, 7⟩)⟩ : MultiProposer Nat) 6 =
      some [1, 0, 2] ∧
    rankIn 0 [1, 0, 2] = some (0 + 1) ∧
    ∃ m', MultiProposer.process_proposal
        (⟨[0, 1, 2, 3], 3, 5, some (1, ⟨5, some 1, 7⟩)⟩ : MultiProposer Nat)
        (Block.mk 6 (some 0) 11) = some (m', none) ∧
      m'.backup_proposal = some (0 + 1, Block.mk 6 (some 0) 11) ∧
      m'.backup_proposal_round = (Block.mk 6 (some 0) 11).round ∧
      (∀ r0, r0 ≠ (Block.mk 6 (some 0) 11).round →
        m'.take_backup_proposal r0 = (m', none)) ∧
      m'.take_backup_proposal (Block.mk 6 (some 0) 11).round =
        ({ m' with backup_proposal := none }, some (Block.mk 6 (some 0) 11)) :=
  ⟨rfl, by decide, by decide,
   C5_round_supersession
     (⟨[0, 1, 2, 3], 3, 5, some (1, ⟨5, some 1, 7⟩)⟩ : MultiProposer Nat)
     (Block.mk 6 (some 0) 11) 0 [1, 0, 2] 1 ⟨5, some 1, 7⟩ 0
     rfl (by decide) rfl (by decide) (by decide)⟩

/-- C6: for every state and every proposal whose author equals the rank-0
candidate of the proposal's round, `process_proposal` returns `Some` of
that exact block and the state (in particular `backup_proposal` and
`backup_proposal_round`) is left completely unchanged. -/
theorem C6_primary_proposal_returned_unchanged {α : Type} [DecidableEq α]
    (m : MultiProposer α) (p : Block α) (a : α) (cands : List α)
    (ha : p.author = some a) (hc : m.get_candidates p.round = some cands)
    (h0 : rankIn a cands = some 0) :
    m.process_proposal p = some (m, some p) := by
  rw [process_proposal_eq m p a cands ha hc, h0]

/-- C6 witness: round-7 primary of `[0, 1, 2, 3]` with count 3 is author 0. -/
theorem C6_witness :
    (Block.mk 7 (some 0) 42).author = some 0 ∧
    MultiProposer.get_candidates
      (⟨[0, 1, 2, 3], 3, 9, some (2, ⟨9, some 2, 3⟩)⟩ : MultiProposer Nat) 7 =
      some [0, 3, 2] ∧
    rankIn 0 [0, 3, 2] = some 0 ∧
    MultiProposer.process_proposal
      (⟨[0, 1, 2, 3], 3, 9, some (2, ⟨9, some 2, 3⟩)⟩ : MultiProposer Nat)
      (Block.mk 7 (some 0) 42) =
      some (⟨[0, 1, 2, 3], 3, 9, some (2, ⟨9, some 2, 3⟩)⟩,
        some (Block.mk 7 (some 0) 42)) :=
  ⟨rfl, by decide, by decide,
   C6_primary_proposal_returned_unchanged
     (⟨[0, 1, 2, 3], 3, 9, some (2, ⟨9, some 2, 3⟩)⟩ : MultiProposer Nat)
     (Block.mk 7 (some 0) 42) 0 [0, 3, 2] rfl (by decide) (by decide)⟩

/-- C7: `take_backup_proposal r` returns nothing (and changes nothing)
when the tracked backup round differs from `r`; when it equals `r` and a
block is stored, it returns that block and clears only the stored block
slot, leaving the tracked round unchanged, so an immediate second call
with the same round returns nothing. -/
theorem C7_take_backup_proposal_spec {α : Type} (m : MultiProposer α)
    (r : Nat) :
    (m.backup_proposal_round ≠ r → m.take_backup_proposal r = (m, none)) ∧
    (∀ j b, m.backup_proposal_round = r → m.backup_proposal = some (j, b) →
      m.take_backup_proposal r = ({ m with backup_proposal := none }, some b) ∧
      ({ m with backup_proposal := none } :
        MultiProposer α).backup_proposal_round = m.backup_proposal_round ∧
      ({ m with backup_proposal := none } :
        MultiProposer α).take_backup_proposal r =
        (({ m with backup_proposal := none } : MultiProposer α), none)) := by
  constructor
  · intro hne
    unfold MultiProposer.take_backup_proposal
    rw [if_pos hne]
  · intro j b heq hsome
    refine ⟨?_, rfl, ?_⟩
    · unfold MultiProposer.take_backup_proposal
      rw [if_neg (by simp [heq]), hsome]
    · unfold MultiProposer.take_backup_proposal
      rw [if_neg (by simp [heq])]

/-- C7 witness: a state holding a round-5 backup, probed at rounds 4 and 5. -/
theorem C7_witness :
    MultiProposer.take_backup_proposal
      (⟨[0, 1], 1, 5, some (1, ⟨5, some 1, 9⟩)⟩ : MultiProposer Nat) 4 =
      (⟨[0, 1], 1, 5, some (1, ⟨5, some 1, 9⟩)⟩, none) ∧
    MultiProposer.take_backup_proposal
      (⟨[0, 1], 1, 5, some (1, ⟨5, some 1, 9⟩)⟩ : MultiProposer Nat) 5 =
      (⟨[0, 1], 1, 5, none⟩, some ⟨5, some 1, 9⟩) ∧
    MultiProposer.take_backup_proposal
      (⟨[0, 1], 1, 5, none⟩ : MultiProposer Nat) 5 = (⟨[0, 1], 1, 5, none⟩, none) :=
  ⟨(C7_take_backup_proposal_spec
      (⟨[0, 1], 1, 5, some (1, ⟨5, some 1, 9⟩)⟩ : MultiProposer Nat) 4).1
      (by decide),
   ((C7_take_backup_proposal_spec
      (⟨[0, 1], 1, 5, some (1, ⟨5, some 1, 9⟩)⟩ : MultiProposer Nat) 5).2
      1 ⟨5, some 1, 9⟩ rfl rfl).1,
   ((C7_take_backup_proposal_spec
      (⟨[0, 1], 1, 5, some (1, ⟨5, some 1, 9⟩)⟩ : MultiProposer Nat) 5).2
      1 ⟨5, some 1, 9⟩ rfl rfl).2.2⟩

/-- C8: `process_proposal` returns `None` and leaves the state (hence
`backup_proposal` and `backup_proposal_round`) completely unchanged
whenever the proposal has no author, or its author matches no candidate at
any rank for its round, or its author is a rank `> 0` candidate but the
proposal's round is strictly below the tracked backup round; since the
resulting state is the input state itself, such a proposal is never
retrievable via `take_backup_proposal` afterwards. -/
theorem C8_not_actionable_state_unchanged {α : Type} [DecidableEq α]
    (m : MultiProposer α) (p : Block α)
    (h : p.author = none ∨
      (∃ a cands, p.author = some a ∧
        m.get_candidates p.round = some cands ∧ rankIn a cands = none) ∨
      (∃ a cands j, p.author = some a ∧
        m.get_candidates p.round = some cands ∧
        rankIn a cands = some (j + 1) ∧
        p.round < m.backup_proposal_round)) :
    m.process_proposal p = some (m, none) := by
  rcases h with h | ⟨a, cands, ha, hc, hrk⟩ | ⟨a, cands, j, ha, hc, hrk, hlt⟩
  · exact process_proposal_none_author m p h
  · rw [process_proposal_eq m p a cands ha hc, hrk]
  · rw [process_proposal_eq m p a cands ha hc, hrk]
    simp only [recordBackup, Option.some.injEq]
    rw [if_neg (by omega), if_neg (by omega)]

/-- C8 witness: all three discard paths at concrete inputs. -/
theorem C8_witness :
    MultiProposer.process_proposal
      (⟨[0, 1, 2, 3], 3, 9, some (1, ⟨9, some 3, 5⟩)⟩ : MultiProposer Nat)
      (Block.mk 7 none 1) =
      some (⟨[0, 1, 2, 3], 3, 9, some (1, ⟨9, some 3, 5⟩)⟩, none) ∧
    MultiProposer.process_proposal
      (⟨[0, 1, 2, 3], 3, 9, some (1, ⟨9, some 3, 5⟩)⟩ : MultiProposer Nat)
      (Block.mk 7 (some 1) 2) =
      some (⟨[0, 1, 2, 3], 3, 9, some (1, ⟨9, some 3, 5⟩)⟩, none) ∧
    MultiProposer.process_proposal
      (⟨[0, 1, 2, 3], 3, 9, some (1, ⟨9, some 3, 5⟩)⟩ : MultiProposer Nat)
      (Block.mk 7 (some 3) 3) =
      some (⟨[0, 1, 2, 3], 3, 9, some (1, ⟨9, some 3, 5⟩)⟩, none) :=
  ⟨C8_not_actionable_state_unchanged _ _ (Or.inl rfl),
   C8_not_actionable_state_unchanged _ _
     (Or.inr (Or.inl ⟨1, [0, 3, 2], rfl, by decide, by decide⟩)),
   C8_not_actionable_state_unchanged _ _
     (Or.inr (Or.inr ⟨3, [0, 3, 2], 0, rfl, by decide, by decide, by decide⟩))⟩

/-- C9: for fixed proposer list and fixed effective count,
`get_valid_proposers` and `is_valid_proposer` give the same results on any
two instances agreeing on that configuration (regardless of their backup
state, i.e. on every call and across independently constructed
instances); and `is_valid_proposer author round` returns `Some author`
exactly when `author` occurs at some rank in `get_valid_proposers round`. -/
theorem C9_determinism_and_is_valid_proposer {α : Type} [DecidableEq α]
    (m1 m2 : MultiProposer α) (h1 : m1.proposers = m2.proposers)
    (h2 : m1.num_proposers_per_round = m2.num_proposers_per_round)
    (r : Nat) :
    m1.get_valid_proposers r = m2.get_valid_proposers r ∧
    (∀ a, m1.is_valid_proposer a r = m2.is_valid_proposer a r) ∧
    (∀ a l, m1.get_valid_proposers r = some l →
      (m1.is_valid_proposer a r = some (some a) ↔ a ∈ l)) := by
  have hgc : m1.get_candidates r = m2.get_candidates r := by
    unfold MultiProposer.get_candidates
    rw [h1, h2]
  refine ⟨hgc, fun a => by unfold MultiProposer.is_valid_proposer; rw [hgc], ?_⟩
  intro a l hl
  unfold MultiProposer.is_valid_proposer
  rw [show m1.get_candidates r = some l from hl]
  simp only [Option.map_some', Option.some.injEq]
  constructor
  · intro h
    by_cases hmem : a ∈ l
    · exact hmem
    · rw [if_neg hmem] at h
      exact absurd h (by simp)
  · intro hmem
    rw [if_pos hmem]

/-- C9 witness: two instances with the same configuration but different
backup state agree on round 7, and membership characterises
`is_valid_proposer`. -/
theorem C9_witness :
    MultiProposer.get_valid_proposers
      (⟨[0, 1, 2, 3], 3, 0, none⟩ : MultiProposer Nat) 7 =
    MultiProposer.get_valid_proposers
      (⟨[0, 1, 2, 3], 3, 9, some (1, ⟨9, some 1, 1⟩)⟩ : MultiProposer Nat) 7 ∧
    (∀ a, MultiProposer.is_valid_proposer
        (⟨[0, 1, 2, 3], 3, 0, none⟩ : MultiProposer Nat) a 7 =
      MultiProposer.is_valid_proposer
        (⟨[0, 1, 2, 3], 3, 9, some (1, ⟨9, some 1, 1⟩)⟩ : MultiProposer Nat)
        a 7) ∧
    (MultiProposer.is_valid_proposer
        (⟨[0, 1, 2, 3], 3, 0, none⟩ : MultiProposer Nat) 3 7 =
        some (some 3) ↔ (3 : Nat) ∈ [0, 3, 2]) :=
  ⟨(C9_determinism_and_is_valid_proposer _ _ rfl rfl 7).1,
   (C9_determinism_and_is_valid_proposer _ _ rfl rfl 7).2.1,
   (C9_determinism_and_is_valid_proposer
      (⟨[0, 1, 2, 3], 3, 0, none⟩ : MultiProposer Nat)
      (⟨[0, 1, 2, 3], 3, 9, some (1, ⟨9, some 1, 1⟩)⟩ : MultiProposer Nat)
      rfl rfl 7).2.2 3 [0, 3, 2] (by decide)⟩

/-! ### The backup-convergence argument for sequences of proposals -/

theorem proposalRank_some {α : Type} [DecidableEq α] (cands : List α)
    (p : Block α) (j : Nat) (h : proposalRank cands p = some j) :
    ∃ a, p.author = some a ∧ rankIn a cands = some j := by
  unfold proposalRank at h
  cases hA : p.author with
  | none => rw [hA] at h; simp at h
  | some a => rw [hA] at h; exact ⟨a, rfl, by simpa using h⟩

theorem process_backup_step_eq {α : Type} [DecidableEq α]
    (m : MultiProposer α) (q : Block α) (aq : α) (cands : List α)
    (jq j0 : Nat) (p0 : Block α) (haq : q.author = some aq)
    (hcq : m.get_candidates q.round = some cands)
    (hrkq : rankIn aq cands = some (jq + 1))
    (hround : q.round = m.backup_proposal_round)
    (hb : m.backup_proposal = some (j0, p0)) :
    m.process_proposal q =
      some (if jq + 1 < j0 then
        ({ m with backup_proposal := some (jq + 1, q) }, none)
      else (m, none)) := by
  have hpe := process_proposal_eq m q aq cands haq hcq
  rw [hrkq] at hpe
  have hrb : recordBackup m q (jq + 1) =
      if jq + 1 < j0 then
        ({ m with backup_proposal := some (jq + 1, q) }, none)
      else (m, none) := by
    simp only [recordBackup, hb]
    rw [if_neg (by omega), if_pos hround]
  simp only [hrb] at hpe
  exact hpe

theorem processAll_running_min {α : Type} [DecidableEq α] (r : Nat)
    (cands : List α) :
    ∀ (ps : List (Block α)) (m : MultiProposer α),
      m.get_candidates r = some cands →
      m.backup_proposal_round = r →
      (∀ p ∈ ps, p.round = r ∧ ∃ j, proposalRank cands p = some (j + 1)) →
      ∀ j0 p0, m.backup_proposal = some (j0, p0) →
      ∃ mf jmin pkept, processAll m ps = some mf ∧
        mf.backup_proposal_round = r ∧
        mf.backup_proposal = some (jmin, pkept) ∧
        jmin ≤ j0 ∧
        (∀ q ∈ ps, ∀ i, proposalRank cands q = some i → jmin ≤ i) ∧
        ((jmin = j0 ∧ pkept = p0) ∨
          (jmin < j0 ∧ proposalRank cands pkept = some jmin ∧
            ∃ pre post, ps = pre ++ pkept :: post ∧
              ∀ q ∈ pre, ∀ i, proposalRank cands q = some i → jmin < i)) := by
  intro ps
  induction ps with
  | nil =>
    intro m hgc hround hps j0 p0 hb
    exact ⟨m, j0, p0, rfl, hround, hb, Nat.le_refl j0, by simp,
      Or.inl ⟨rfl, rfl⟩⟩
  | cons q qs ih =>
    intro m hgc hround hps j0 p0 hb
    obtain ⟨hqr, jq, hjq⟩ := hps q (List.mem_cons_self q qs)
    obtain ⟨aq, haq, hrkq⟩ := proposalRank_some cands q (jq + 1) hjq
    have hcq : m.get_candidates q.round = some cands := by
      rw [hqr]; exact hgc
    have hstep := process_backup_step_eq m q aq cands jq j0 p0 haq hcq hrkq
      (by rw [hqr, hround]) hb
    have hps1 : ∀ p ∈ qs, p.round = r ∧
        ∃ j, proposalRank cands p = some (j + 1) :=
      fun p hp => hps p (List.mem_cons_of_mem q hp)
    by_cases hlt : jq + 1 < j0
    · rw [if_pos hlt] at hstep
      have hgc1 : MultiProposer.get_candidates
          { m with backup_proposal := some (jq + 1, q) } r = some cands := hgc
      have hround1 : MultiProposer.backup_proposal_round
          { m with backup_proposal := some (jq + 1, q) } = r := hround
      obtain ⟨mf, jmin, pkept, hall, hrf, hbf, hle, hmin, hcase⟩ :=
        ih { m with backup_proposal := some (jq + 1, q) } hgc1 hround1 hps1
          (jq + 1) q rfl
      refine ⟨mf, jmin, pkept, ?_, hrf, hbf, by omega, ?_, ?_⟩
      · simp only [processAll, hstep]; exact hall
      · intro q2 hq2 i hri
        rcases List.mem_cons.mp hq2 with rfl | hq2
        · rw [hjq] at hri
          injection hri with hri
          omega
        · exact hmin q2 hq2 i hri
      · rcases hcase with ⟨hj, hp⟩ | ⟨hlt2, hrank, pre, post, heq, hpre⟩
        · right
          subst hp
          refine ⟨by omega, by rw [hj]; exact hjq, [], qs, by simp, by simp⟩
        · right
          refine ⟨by omega, hrank, q :: pre, post, by simp [heq], ?_⟩
          intro q2 hq2 i hri
          rcases List.mem_cons.mp hq2 with rfl | hq2
          · rw [hjq] at hri
            injection hri with hri
            omega
          · exact hpre q2 hq2 i hri
    · rw [if_neg hlt] at hstep
      obtain ⟨mf, jmin, pkept, hall, hrf, hbf, hle, hmin, hcase⟩ :=
        ih m hgc hround hps1 j0 p0 hb
      refine ⟨mf, jmin, pkept, ?_, hrf, hbf, hle, ?_, ?_⟩
      · simp only [processAll, hstep]; exact hall
      · intro q2 hq2 i hri
        rcases List.mem_cons.mp hq2 with rfl | hq2
        · rw [hjq] at hri
          injection hri with hri
          omega
        · exact hmin q2 hq2 i hri
      · rcases hcase with hinl | ⟨hlt2, hrank, pre, post, heq, hpre⟩
        · exact Or.inl hinl
        · right
          refine ⟨hlt2, hrank, q :: pre, post, by simp [heq], ?_⟩
          intro q2 hq2 i hri
          rcases List.mem_cons.mp hq2 with rfl | hq2
          · rw [hjq] at hri
            injection hri with hri
            omega
          · exact hpre q2 hq2 i hri

theorem processAll_backup_spec {α : Type} [DecidableEq α]
    (m0 : MultiProposer α) (r : Nat) (cands : List α)
    (ps : List (Block α)) (hgc : m0.get_candidates r = some cands)
    (hr : m0.backup_proposal_round < r) (hne : ps ≠ [])
    (hps : ∀ p ∈ ps, p.round = r ∧
      ∃ j, proposalRank cands p = some (j + 1)) :
    ∃ mf jmin pkept, processAll m0 ps = some mf ∧
      mf.backup_proposal_round = r ∧
      mf.backup_proposal = some (jmin, pkept) ∧
      proposalRank cands pkept = some jmin ∧
      (∀ q ∈ ps, ∀ i, proposalRank cands q = some i → jmin ≤ i) ∧
      ∃ pre post, ps = pre ++ pkept :: post ∧
        ∀ q ∈ pre, proposalRank cands q ≠ some jmin := by
  cases ps with
  | nil => exact absurd rfl hne
  | cons p1 rest =>
    obtain ⟨h1r, j1, hj1⟩ := hps p1 (List.mem_cons_self p1 rest)
    obtain ⟨a1, ha1, hrk1⟩ := proposalRank_some cands p1 (j1 + 1) hj1
    have hc1 : m0.get_candidates p1.round = some cands := by
      rw [h1r]; exact hgc
    have hpe := process_proposal_eq m0 p1 a1 cands ha1 hc1
    rw [hrk1] at hpe
    have hrb : recordBackup m0 p1 (j1 + 1) =
        ({ m0 with backup_proposal := some (j1 + 1, p1)
                   backup_proposal_round := p1.round }, none) := by
      simp only [recordBackup]
      rw [if_pos (by rw [h1r]; exact hr)]
    simp only [hrb] at hpe
    have hgc1 : MultiProposer.get_candidates
        { m0 with backup_proposal := some (j1 + 1, p1)
                  backup_proposal_round := p1.round } r = some cands := hgc
    have hround1 : MultiProposer.backup_proposal_round
        { m0 with backup_proposal := some (j1 + 1, p1)
                  backup_proposal_round := p1.round } = r := h1r
    obtain ⟨mf, jmin, pkept, hall, hrf, hbf, hle, hmin, hcase⟩ :=
      processAll_running_min r cands rest
        { m0 with backup_proposal := some (j1 + 1, p1)
                  backup_proposal_round := p1.round }
        hgc1 hround1 (fun p hp => hps p (List.mem_cons_of_mem p1 hp))
        (j1 + 1) p1 rfl
    refine ⟨mf, jmin, pkept, ?_, hrf, hbf, ?_, ?_, ?_⟩
    · simp only [processAll, hpe]; exact hall
    · rcases hcase with ⟨hj, hp⟩ | ⟨_, hrank, _⟩
      · subst hp; rw [hj]; exact hj1
      · exact hrank
    · intro q hq i hri
      rcases List.mem_cons.mp hq with rfl | hq
      · rw [hj1] at hri
        injection hri with hri
        omega
      · exact hmin q hq i hri
    · rcases hcase with ⟨hj, hp⟩ | ⟨hlt2, hrank, pre, post, heq, hpre⟩
      · subst hp; exact ⟨[], rest, rfl, by simp⟩
      · refine ⟨p1 :: pre, post, by simp [heq], ?_⟩
        intro q hq
        rcases List.mem_cons.mp hq with rfl | hq
        · rw [hj1]
          intro hcon
          injection hcon with hcon
          omega
        · intro hcon
          exact absurd (hpre q hq jmin hcon) (Nat.lt_irrefl jmin)

/-- C4: for a fixed round `r` and any non-empty sequence of proposals all
of round `r` whose authors are rank `> 0` candidates for `r` (starting
from a state whose tracked backup round lies below `r`), processing the
whole sequence retains a backup of minimal rank among those submitted,
namely the first-seen proposal achieving that rank (a later equal-rank
proposal never replaces it); and for every permutation of the sequence the
retained backup has that same minimal rank — the result is independent of
arrival order up to the first-seen tie-break. -/
theorem C4_lowest_rank_backup_retained {α : Type} [DecidableEq α]
    (m0 : MultiProposer α) (r : Nat) (cands : List α)
    (ps : List (Block α)) (hgc : m0.get_candidates r = some cands)
    (hr : m0.backup_proposal_round < r) (hne : ps ≠ [])
    (hps : ∀ p ∈ ps, p.round = r ∧
      ∃ j, proposalRank cands p = some (j + 1)) :
    ∃ mf jmin pkept, processAll m0 ps = some mf ∧
      mf.backup_proposal_round = r ∧
      mf.backup_proposal = some (jmin, pkept) ∧
      pkept ∈ ps ∧
      proposalRank cands pkept = some jmin ∧
      (∀ q ∈ ps, ∀ i, proposalRank cands q = some i → jmin ≤ i) ∧
      (∃ pre post, ps = pre ++ pkept :: post ∧
        ∀ q ∈ pre, proposalRank cands q ≠ some jmin) ∧
      (∀ ps2, ps2.Perm ps →
        ∃ mf2 pkept2, processAll m0 ps2 = some mf2 ∧
          mf2.backup_proposal_round = r ∧
          mf2.backup_proposal = some (jmin, pkept2)) := by
  obtain ⟨mf, jmin, pkept, hall, hrf, hbf, hrank, hmin, hfirst⟩ :=
    processAll_backup_spec m0 r cands ps hgc hr hne hps
  have hmem : pkept ∈ ps := by
    obtain ⟨pre, post, heq, _⟩ := hfirst
    rw [heq]
    exact List.mem_append.mpr (Or.inr (List.mem_cons_self pkept post))
  refine ⟨mf, jmin, pkept, hall, hrf, hbf, hmem, hrank, hmin, hfirst, ?_⟩
  intro ps2 hperm
  have hne2 : ps2 ≠ [] := by
    intro hnil
    apply hne
    have hlen := hperm.length_eq
    rw [hnil] at hlen
    exact List.length_eq_zero.mp hlen.symm
  have hps2 : ∀ p ∈ ps2, p.round = r ∧
      ∃ j, proposalRank cands p = some (j + 1) :=
    fun p hp => hps p (hperm.mem_iff.mp hp)
  obtain ⟨mf2, jmin2, pkept2, hall2, hrf2, hbf2, hrank2, hmin2, hfirst2⟩ :=
    processAll_backup_spec m0 r cands ps2 hgc hr hne2 hps2
  have hm2mem : pkept2 ∈ ps2 := by
    obtain ⟨pre2, post2, heq2, _⟩ := hfirst2
    rw [heq2]
    exact List.mem_append.mpr (Or.inr (List.mem_cons_self pkept2 post2))
  have h12 : jmin ≤ jmin2 := hmin pkept2 (hperm.mem_iff.mp hm2mem) jmin2 hrank2
  have h21 : jmin2 ≤ jmin := hmin2 pkept (hperm.mem_iff.mpr hmem) jmin hrank
  have hjeq : jmin2 = jmin := by omega
  exact ⟨mf2, pkept2, hall2, hrf2, by rw [← hjeq]; exact hbf2⟩

/-- C4 witness: round 7 over `[0, 1, 2, 3]` with count 3 (candidates
`[0, 3, 2]`): a rank-2 proposal (author 2) then a rank-1 proposal
(author 3). -/
theorem C4_witness :
    ([Block.mk 7 (some 2) 21, Block.mk 7 (some 3) 22] : List (Block Nat)) ≠ [] ∧
    ∃ mf jmin pkept,
      processAll (⟨[0, 1, 2, 3], 3, 0, none⟩ : MultiProposer Nat)
        [Block.mk 7 (some 2) 21, Block.mk 7 (some 3) 22] = some mf ∧
      mf.backup_proposal_round = 7 ∧
      mf.backup_proposal = some (jmin, pkept) ∧
      pkept ∈ [Block.mk 7 (some 2) 21, Block.mk 7 (some 3) 22] ∧
      proposalRank [0, 3, 2] pkept = some jmin ∧
      (∀ q ∈ [Block.mk 7 (some 2) 21, Block.mk 7 (some 3) 22],
        ∀ i, proposalRank [0, 3, 2] q = some i → jmin ≤ i) ∧
      (∃ pre post, [Block.mk 7 (some 2) 21, Block.mk 7 (some 3) 22] =
          pre ++ pkept :: post ∧
        ∀ q ∈ pre, proposalRank [0, 3, 2] q ≠ some jmin) ∧
      (∀ ps2, ps2.Perm [Block.mk 7 (some 2) 21, Block.mk 7 (some 3) 22] →
        ∃ mf2 pkept2, processAll (⟨[0, 1, 2, 3], 3, 0, none⟩ : MultiProposer Nat)
            ps2 = some mf2 ∧
          mf2.backup_proposal_round = 7 ∧
          mf2.backup_proposal = some (jmin, pkept2)) :=
  ⟨by decide,
   C4_lowest_rank_backup_retained (⟨[0, 1, 2, 3], 3, 0, none⟩ : MultiProposer Nat)
     7 [0, 3, 2] [Block.mk 7 (some 2) 21, Block.mk 7 (some 3) 22]
     (by decide) (by decide) (by decide)
     (by
       intro p hp
       rcases List.mem_cons.mp hp with rfl | hp
       · exact ⟨rfl, 1, by decide⟩
       · rcases List.mem_cons.mp hp with rfl | hp
         · exact ⟨rfl, 0, by decide⟩
         · simp at hp)⟩

end Libra
